import Mathlib

/-!
Verification of the core of `python-refactor-mcp`:
- the LSP JSON-RPC client (`lsp_client.py`): request id allocation,
  pending-request correlation, the background reader loop, timeouts;
- the workspace-edit engine (`workspace_edit.py`): URI handling,
  text-edit application, plan application to a file system.

The embedding is shallow: file contents and paths are lists of characters,
the file system is an association list from path to content, and the
asynchronous parts of the client are modelled as explicit state transitions
(one transition per message processed by the reader task).
-/

/-! ### Association-list primitives

Python dictionaries are modelled as association lists with first-match
lookup; insertion (`d[k] = v`) removes any previous binding and conses the
new one, and deletion (`del d[k]` / `d.pop(k, None)`) filters the key out.
-/

def lookupA {α β : Type} [DecidableEq α] : List (α × β) → α → Option β
  | [], _ => none
  | (k, v) :: rest, key => if key = k then some v else lookupA rest key

def eraseA {α β : Type} [DecidableEq α] : List (α × β) → α → List (α × β)
  | [], _ => []
  | (k, v) :: rest, key =>
    if k = key then eraseA rest key else (k, v) :: eraseA rest key

def insertA {α β : Type} [DecidableEq α] (l : List (α × β)) (key : α) (v : β) :
    List (α × β) :=
  (key, v) :: eraseA l key

theorem lookupA_eraseA {α β : Type} [DecidableEq α]
    (l : List (α × β)) (key j : α) :
    lookupA (eraseA l key) j = if j = key then none else lookupA l j := by
  induction l with
  | nil => simp [lookupA, eraseA]
  | cons p rest ih =>
    obtain ⟨k, v⟩ := p
    by_cases hk : k = key
    · subst hk
      by_cases hj : j = k
      · subst hj
        simp [eraseA, lookupA, ih]
      · simp [eraseA, lookupA, hj, ih]
    · by_cases hj : j = k
      · subst hj
        simp [eraseA, lookupA, hk, ih, Ne.symm hk]
      · simp [eraseA, lookupA, hk, hj, ih]

theorem lookupA_insertA {α β : Type} [DecidableEq α]
    (l : List (α × β)) (key j : α) (v : β) :
    lookupA (insertA l key v) j = if j = key then some v else lookupA l j := by
  by_cases hj : j = key <;> simp [insertA, lookupA, hj, lookupA_eraseA]

/-! ### Python `str.splitlines(keepends=True)`

`workspace_edit.py` splits file content with `content.splitlines(keepends=True)`.
Python treats the following characters as line boundaries, with `"\r\n"`
kept together as a single terminator.
-/

def isLineBreak (c : Char) : Bool :=
  c = '\n' || c = '\r' || c = '\x0b' || c = '\x0c' ||
  c = '\x1c' || c = '\x1d' || c = '\x1e' || c = '\x85' ||
  c = '\u2028' || c = '\u2029'

def splitLinesAux : List Char → List Char → List (List Char)
  | [], acc => if acc.isEmpty then [] else [acc.reverse]
  | [c], acc =>
    if c = '\r' then (acc.reverse ++ ['\r']) :: splitLinesAux [] []
    else if isLineBreak c then (acc.reverse ++ [c]) :: splitLinesAux [] []
    else splitLinesAux [] (c :: acc)
  | c :: c2 :: rest, acc =>
    if c = '\r' then
      if c2 = '\n' then (acc.reverse ++ ['\r', '\n']) :: splitLinesAux rest []
      else (acc.reverse ++ ['\r']) :: splitLinesAux (c2 :: rest) []
    else if isLineBreak c then
      (acc.reverse ++ [c]) :: splitLinesAux (c2 :: rest) []
    else
      splitLinesAux (c2 :: rest) (c :: acc)

def splitLines (s : List Char) : List (List Char) :=
  splitLinesAux s []

/-- Joining the lines produced by `splitLinesAux` recovers the pending
accumulator followed by the remaining input. -/
theorem join_splitLinesAux :
    ∀ (s acc : List Char), (splitLinesAux s acc).flatten = acc.reverse ++ s
  | [], acc => by
    cases acc <;> simp [splitLinesAux]
  | [c], acc => by
    by_cases hr : c = '\r'
    · simp [splitLinesAux, hr, join_splitLinesAux [] []]
    · by_cases hb : isLineBreak c
      · simp [splitLinesAux, hr, hb, join_splitLinesAux [] []]
      · simp [splitLinesAux, hr, hb, join_splitLinesAux [] (c :: acc)]
  | c :: c2 :: rest, acc => by
    by_cases hr : c = '\r'
    · by_cases h2 : c2 = '\n'
      · simp [splitLinesAux, hr, h2, join_splitLinesAux rest []]
      · simp [splitLinesAux, hr, h2, join_splitLinesAux (c2 :: rest) []]
    · by_cases hb : isLineBreak c
      · simp [splitLinesAux, hr, hb, join_splitLinesAux (c2 :: rest) []]
      · simp [splitLinesAux, hr, hb, join_splitLinesAux (c2 :: rest) (c :: acc)]

/-- `"".join(content.splitlines(keepends=True))` is the identity. -/
theorem join_splitLines (s : List Char) : (splitLines s).flatten = s := by
  simpa using join_splitLinesAux s []

/-! ### Text edit data model (`workspace_edit.py`)

An LSP `TextEdit` is `{"range": {"start": {"line", "character"},
"end": {"line", "character"}}, "newText": <string>}`. The JSON field
`"end"` is embedded as the field `stop`.
-/

structure Pos where
  line : Nat
  character : Nat
deriving DecidableEq, Repr

structure EditRange where
  start : Pos
  stop : Pos
deriving DecidableEq, Repr

structure TextEdit where
  range : EditRange
  newText : List Char
deriving DecidableEq, Repr

/-- Python's `line.endswith(suffix)`. -/
def endsWith (line suffix : List Char) : Bool :=
  suffix.isSuffixOf line

/-- The `endswith("\r\n") / endswith("\n")` line-terminator split used by
`_apply_single_edit`: returns the line body and its recognised ending. -/
def splitLineEnding (line : List Char) : List Char × List Char :=
  if endsWith line ['\r', '\n'] then
    (line.take (line.length - 2), ['\r', '\n'])
  else if endsWith line ['\n'] then
    (line.take (line.length - 1), ['\n'])
  else
    (line, [])

/-- Python's `s.split("\n")`: the parts between newline characters
(never empty as a list of parts). -/
def splitOnNl : List Char → List (List Char)
  | [] => [[]]
  | c :: rest =>
    if c = '\n' then [] :: splitOnNl rest
    else
      match splitOnNl rest with
      | [] => [[c]]
      | l :: ls => (c :: l) :: ls

/-- The `while len(lines) <= max(start_line, end_line): lines.append("\n")`
padding loop: append `"\n"` lines until the length exceeds `n`. -/
def padLines (lines : List (List Char)) (n : Nat) : List (List Char) :=
  lines ++ List.replicate (n + 1 - lines.length) ['\n']

/-- `WorkspaceEditManager._apply_single_edit`, ported clause by clause. -/
def applySingleEdit (lines0 : List (List Char))
    (start_line start_char end_line end_char : Nat) (new_text : List Char) :
    List (List Char) :=
  -- Handle edge case: empty file
  let lines1 := if lines0.isEmpty then [[]] else lines0
  -- Ensure we have enough lines
  let lines := padLines lines1 (max start_line end_line)
  if start_line = end_line then
    -- Single line edit
    let line := lines.getD start_line []
    let (line, line_ending) := splitLineEnding line
    let before := line.take start_char
    let after := line.drop end_char
    let new_line := before ++ new_text ++ after
    if new_line.contains '\n' then
      let new_lines := splitOnNl new_line
      let new_lines_with_endings :=
        (new_lines.dropLast.map (fun l => l ++ line_ending)) ++
          [new_lines.getLastD [] ++ line_ending]
      lines.take start_line ++ new_lines_with_endings ++
        lines.drop (start_line + 1)
    else
      lines.set start_line (new_line ++ line_ending)
  else
    -- Multi-line edit
    let start_line_content := lines.getD start_line []
    let (start_line_content, start_line_ending) :=
      splitLineEnding start_line_content
    let before := start_line_content.take start_char
    let end_line_content := lines.getD end_line []
    let (end_line_content, end_line_ending) := splitLineEnding end_line_content
    let after := end_line_content.drop end_char
    let new_content := before ++ new_text ++ after
    if new_content.contains '\n' then
      let new_lines := splitOnNl new_content
      let new_lines_with_endings :=
        (new_lines.dropLast.map (fun l => l ++ start_line_ending)) ++
          [new_lines.getLastD [] ++ end_line_ending]
      lines.take start_line ++ new_lines_with_endings ++
        lines.drop (end_line + 1)
    else
      lines.take start_line ++ [new_content ++ start_line_ending] ++
        lines.drop (end_line + 1)

/-! ### Sorting and applying a file's edit list

`_apply_text_edits` sorts by `(start.line, start.character)` with
`reverse=True`; Python's sort is stable, so an edit `a` stays before `b`
exactly when `a`'s key is lexicographically `≥` `b`'s key.
-/

def editKey (e : TextEdit) : Nat × Nat :=
  (e.range.start.line, e.range.start.character)

def keyLe (p q : Nat × Nat) : Bool :=
  decide (p.1 < q.1 ∨ (p.1 = q.1 ∧ p.2 ≤ q.2))

/-- Comparator fed to the stable sort: descending by start position. -/
def editLe (a b : TextEdit) : Bool :=
  keyLe (editKey b) (editKey a)

def sortEdits (text_edits : List TextEdit) : List TextEdit :=
  text_edits.mergeSort editLe

def applyEditToLines (lines : List (List Char)) (edit : TextEdit) :
    List (List Char) :=
  applySingleEdit lines edit.range.start.line edit.range.start.character
    edit.range.stop.line edit.range.stop.character edit.newText

/-- The pure content-rewriting core of
`WorkspaceEditManager._apply_text_edits`: split into lines, apply the
edits in descending start order, join back. -/
def applyTextEditsContent (content : List Char)
    (text_edits : List TextEdit) : List Char :=
  let lines := splitLines content
  let sorted_edits := sortEdits text_edits
  ((sorted_edits.foldl applyEditToLines lines)).flatten

/-! ### Errors, URIs and the file system

Python exceptions raised by `workspace_edit.py` are `ValueError` and
`IOError`; `lsp_client.py` raises `RuntimeError`. The file system is an
association list from path to content. `Path(path).resolve()` is modelled
as the identity on the path string.
-/

deriving instance DecidableEq for Except

inductive PyError where
  | valueError (msg : List Char)
  | ioError (msg : List Char)
  | runtimeError (msg : List Char)
deriving DecidableEq, Repr

def FS : Type := List (List Char × List Char)

/-- `urllib.parse`'s scheme characters. -/
def isSchemeChar (c : Char) : Bool :=
  c.isAlpha || c.isDigit || c = '+' || c = '-' || c = '.'

def splitAtFirst (c : Char) : List Char → Option (List Char × List Char)
  | [] => none
  | x :: rest =>
    if x = c then some ([], rest)
    else (splitAtFirst c rest).map (fun p => (x :: p.1, p.2))

/-- `urlparse(uri)`'s scheme extraction: the text before the first `':'`
when it is a well-formed scheme (lowercased), else empty, together with
the remainder of the URI. -/
def uriSchemeRest (uri : List Char) : List Char × List Char :=
  match splitAtFirst ':' uri with
  | none => ([], uri)
  | some (pre, post) =>
    match pre with
    | [] => ([], uri)
    | c0 :: _ =>
      if c0.isAlpha && pre.all isSchemeChar then (pre.map Char.toLower, post)
      else ([], uri)

/-- `urlparse(uri).path` for the part after the scheme: strip a
`"//"`-prefixed netloc (delimited by `/`, `?` or `#`), then fragment and
query. (Known divergence: `urlparse` additionally separates `;params`
from the last path segment; this model keeps them. No claim exercises a
URI containing `;`.) -/
def parsePathAfterScheme (url0 : List Char) : List Char :=
  let afterNetloc :=
    match url0 with
    | '/' :: '/' :: rest =>
      rest.dropWhile (fun c => !(['/', '?', '#'].contains c))
    | _ => url0
  let beforeFragment := afterNetloc.takeWhile (fun c => c ≠ '#')
  beforeFragment.takeWhile (fun c => c ≠ '?')

/-- `WorkspaceEditManager._uri_to_path`: reject non-`file` schemes with a
`ValueError`, repair the Windows drive-letter quirk, return the path. -/
def uriToPath (uri : List Char) : Except PyError (List Char) :=
  let parsed := uriSchemeRest uri
  if parsed.1 ≠ "file".toList then
    Except.error (PyError.valueError
      ("Only file:// URIs are supported, got: ".toList ++ uri))
  else
    let path := parsePathAfterScheme parsed.2
    -- Windows path like "/C:/Users/...": drop the leading slash
    let path :=
      match path with
      | '/' :: c1 :: ':' :: restP => c1 :: ':' :: restP
      | _ => path
    Except.ok path

/-- Python's universal-newline translation performed by
`open(file_path, "r", encoding="utf-8")` (default `newline=None`): every
`"\r\n"` and every lone `"\r"` in the stored bytes is rewritten to
`"\n"` before the program sees the text. -/
def universalNewlines : List Char → List Char
  | [] => []
  | [c] => if c = '\r' then ['\n'] else [c]
  | c :: c2 :: rest =>
    if c = '\r' then
      if c2 = '\n' then '\n' :: universalNewlines rest
      else '\n' :: universalNewlines (c2 :: rest)
    else c :: universalNewlines (c2 :: rest)

/-- `WorkspaceEditManager._apply_text_edits` at file-system level: fail
with `IOError` when the target is missing, otherwise read (through the
universal-newline translation of text-mode `open`), rewrite and write
back. The text-mode write (`newline=None`) maps `"\n"` to `os.linesep`,
which is `"\n"` on the POSIX platforms this runs on, so the write is the
identity on the produced text. (The trailing `did_change_document`
notification does not touch the file system and is modelled in the
client section.) -/
def applyTextEditsFS (fs : FS) (file_path : List Char)
    (text_edits : List TextEdit) : Except PyError FS :=
  match lookupA fs file_path with
  | none =>
    Except.error (PyError.ioError ("File does not exist: ".toList ++ file_path))
  | some stored =>
    Except.ok (insertA fs file_path
      (applyTextEditsContent (universalNewlines stored) text_edits))

/-- One `documentChanges` array entry: a `TextDocumentEdit`, a resource
operation (recognised by its `kind`, logged and skipped), or an object
with neither key (silently skipped). -/
inductive DocumentChange where
  | textDocumentEdit (uri : List Char) (edits : List TextEdit)
  | resourceOp (kind : List Char)
  | other
deriving DecidableEq, Repr

/-- A `WorkspaceEdit` JSON object: each of the two recognised keys may be
present or absent; `"changes"` is an insertion-ordered map. -/
structure WorkspaceEditObj where
  changes : Option (List (List Char × List TextEdit))
  documentChanges : Option (List DocumentChange)
deriving DecidableEq, Repr

/-- The `for uri, text_edits in changes.items()` loop of
`apply_workspace_edit`. An exception leaves the writes performed so far
in place (first component) and aborts the remaining entries. -/
def applyChanges (fs : FS) :
    List (List Char × List TextEdit) → FS × Except PyError (List (List Char))
  | [] => (fs, Except.ok [])
  | (uri, text_edits) :: rest =>
    match uriToPath uri with
    | Except.error e => (fs, Except.error e)
    | Except.ok file_path =>
      match applyTextEditsFS fs file_path text_edits with
      | Except.error e => (fs, Except.error e)
      | Except.ok fs2 =>
        match applyChanges fs2 rest with
        | (fs3, Except.ok files) => (fs3, Except.ok (file_path :: files))
        | (fs3, Except.error e) => (fs3, Except.error e)

/-- The `for change in document_changes` loop of `apply_workspace_edit`. -/
def applyDocumentChanges (fs : FS) :
    List DocumentChange → FS × Except PyError (List (List Char))
  | [] => (fs, Except.ok [])
  | DocumentChange.textDocumentEdit uri edits :: rest =>
    match uriToPath uri with
    | Except.error e => (fs, Except.error e)
    | Except.ok file_path =>
      match applyTextEditsFS fs file_path edits with
      | Except.error e => (fs, Except.error e)
      | Except.ok fs2 =>
        match applyDocumentChanges fs2 rest with
        | (fs3, Except.ok files) => (fs3, Except.ok (file_path :: files))
        | (fs3, Except.error e) => (fs3, Except.error e)
  | DocumentChange.resourceOp _ :: rest => applyDocumentChanges fs rest
  | DocumentChange.other :: rest => applyDocumentChanges fs rest

/-- `WorkspaceEditManager.apply_workspace_edit`: dispatch on the plan
shape; reject a plan with neither recognised key. -/
def applyWorkspaceEdit (fs : FS) (workspace_edit : WorkspaceEditObj) :
    FS × Except PyError (List (List Char)) :=
  match workspace_edit.changes with
  | some changes => applyChanges fs changes
  | none =>
    match workspace_edit.documentChanges with
    | some document_changes => applyDocumentChanges fs document_changes
    | none =>
      (fs, Except.error (PyError.valueError
        "Invalid WorkspaceEdit: missing 'changes' or 'documentChanges'".toList))

/-! ### LSP client session state (`lsp_client.py`)

JSON result/error payloads are opaque tokens (`Payload`). A caller's
`asyncio.Future` is identified by a number; `resolved` records the single
resolution (`set_result`/`set_exception`) a future has received, if any.
`sent` records the methods of the frames written to the subprocess.
-/

abbrev Payload := Nat

structure Message where
  id : Option Nat
  result : Option Payload
  error : Option Payload
  method : Option (List Char)
deriving DecidableEq, Repr

inductive Outcome where
  | success (v : Payload)
  | failure (e : Payload)
deriving DecidableEq, Repr

structure SessionSt where
  message_id : Nat
  pending_requests : List (Nat × Nat)
  resolved : List (Nat × Outcome)
  initialized : Bool
  open_documents : List (List Char)
  sent : List (List Char)
deriving DecidableEq, Repr

/-- `LSPClient.__init__`: `self.message_id = 0`, empty pending map. -/
def initialSession : SessionSt :=
  { message_id := 0
    pending_requests := []
    resolved := []
    initialized := false
    open_documents := []
    sent := [] }

/-- The resolution `_process_message` gives a found future: `"result"` is
checked first, then `"error"`; a response with neither leaves the future
unresolved. -/
def msgOutcome (m : Message) : Option Outcome :=
  match m.result with
  | some v => some (Outcome.success v)
  | none =>
    match m.error with
    | some e => some (Outcome.failure e)
    | none => none

/-- `LSPClient._process_message`: a message with an id pops the matching
pending future (if any) and resolves it; a notification only logs. -/
def processMessage (st : SessionSt) (m : Message) : SessionSt :=
  match m.id with
  | some request_id =>
    match lookupA st.pending_requests request_id with
    | none => st
    | some fut =>
      let st1 :=
        { st with pending_requests := eraseA st.pending_requests request_id }
      match msgOutcome m with
      | some o => { st1 with resolved := (fut, o) :: st1.resolved }
      | none => st1
  | none => st

def processMessages (st : SessionSt) (msgs : List Message) : SessionSt :=
  msgs.foldl processMessage st

/-- One event seen by the `_read_responses` loop: a decoded message, or a
protocol failure (malformed frame / parse error) that raises out of the
loop. End-of-stream is the end of the event list. -/
inductive ReadEvent where
  | msg (m : Message)
  | malformed
deriving DecidableEq, Repr

/-- `LSPClient._read_responses`: process decoded messages until
end-of-stream or the first protocol failure, then stop. -/
def readerLoop (st : SessionSt) : List ReadEvent → SessionSt
  | [] => st
  | ReadEvent.malformed :: _ => st
  | ReadEvent.msg m :: rest => readerLoop (processMessage st m) rest

/-- The messages the reader actually processes before terminating. -/
def processedMsgs : List ReadEvent → List Message
  | [] => []
  | ReadEvent.malformed :: _ => []
  | ReadEvent.msg m :: rest => m :: processedMsgs rest

theorem readerLoop_eq_processMessages (st : SessionSt) (events : List ReadEvent) :
    readerLoop st events = processMessages st (processedMsgs events) := by
  induction events generalizing st with
  | nil => rfl
  | cons e rest ih =>
    cases e with
    | malformed => rfl
    | msg m => simpa [readerLoop, processedMsgs, processMessages] using ih _

/-- The first half of `LSPClient.send_request`: the initialization gate,
id allocation (`self.message_id += 1`), future registration, and the
frame write. Returns the allocated request id. -/
def sendRequestStart (st : SessionSt) (method : List Char) (fut : Nat) :
    Except PyError (SessionSt × Nat) :=
  if ¬ st.initialized ∧ method ≠ "initialize".toList then
    Except.error (PyError.runtimeError "LSP client not initialized".toList)
  else
    let request_id := st.message_id + 1
    Except.ok
      ({ st with
          message_id := request_id
          pending_requests := insertA st.pending_requests request_id fut
          sent := st.sent ++ [method] },
        request_id)

inductive CallResult where
  | succeeded (v : Payload)
  | failed (e : Payload)
  | timedOut
deriving DecidableEq, Repr

/-- The second half of `LSPClient.send_request`:
`await asyncio.wait_for(future, timeout=30.0)`. If the future has been
resolved the caller gets its value or exception; otherwise the timeout
fires, the pending entry is deleted, and the caller gets the
`RuntimeError("LSP request ... timed out after 30 seconds")`. -/
def awaitWithTimeout (st : SessionSt) (request_id fut : Nat) :
    SessionSt × CallResult :=
  match lookupA st.resolved fut with
  | some (Outcome.success v) => (st, CallResult.succeeded v)
  | some (Outcome.failure e) => (st, CallResult.failed e)
  | none =>
    ({ st with pending_requests := eraseA st.pending_requests request_id },
      CallResult.timedOut)

/-- A sequence of `send_request` id allocations (one per supplied future
identifier); returns the allocated request ids in order. -/
def runAllocs : SessionSt → List Nat → SessionSt × List Nat
  | st, [] => (st, [])
  | st, fut :: futs =>
    match sendRequestStart st "textDocument/rename".toList fut with
    | Except.error _ => (st, [])
    | Except.ok (st1, request_id) =>
      let r := runAllocs st1 futs
      (r.1, request_id :: r.2)

/-- `LSPClient.open_document`: no-op when the uri is already open; a read
failure is logged and the document is not opened; otherwise a `didOpen`
notification is sent and the uri is added to the open set. -/
def openDocument (fs : FS) (st : SessionSt) (file_path : List Char) :
    SessionSt :=
  let uri := "file://".toList ++ file_path
  if st.open_documents.contains uri then st
  else
    match lookupA fs file_path with
    | none => st
    | some _text =>
      { st with
          sent := st.sent ++ ["textDocument/didOpen".toList]
          open_documents := uri :: st.open_documents }

/-- `PythonRefactorMCPServer._rename_symbol`: open the document, send a
`textDocument/rename` request, and return the backend's reply (the
WorkspaceEdit plan). `reply` is the backend's response message, delivered
by the reader task while the call awaits. The file system is threaded
through untouched by every step. -/
def renameSymbol (fs : FS) (st : SessionSt) (fut : Nat) (reply : Message)
    (file_path : List Char) (_line _column : Nat) (_new_name : List Char) :
    FS × SessionSt × Except PyError CallResult :=
  match sendRequestStart (openDocument fs st file_path)
      "textDocument/rename".toList fut with
  | Except.error e => (fs, openDocument fs st file_path, Except.error e)
  | Except.ok (st2, request_id) =>
    (fs,
      (awaitWithTimeout (processMessage st2 reply) request_id fut).1,
      Except.ok (awaitWithTimeout (processMessage st2 reply) request_id fut).2)

/-! ### Correlation invariants of the reader loop -/

theorem lookupA_mem {α β : Type} [DecidableEq α]
    {l : List (α × β)} {key : α} {v : β} (h : lookupA l key = some v) :
    (key, v) ∈ l := by
  induction l with
  | nil => simp [lookupA] at h
  | cons p rest ih =>
    obtain ⟨k, w⟩ := p
    by_cases hk : key = k
    · subst hk
      simp [lookupA] at h
      simp [h]
    · simp [lookupA, hk] at h
      exact List.mem_cons_of_mem _ (ih h)

theorem mem_eraseA {α β : Type} [DecidableEq α]
    {l : List (α × β)} {key : α} {p : α × β} (h : p ∈ eraseA l key) :
    p ∈ l := by
  induction l with
  | nil => simp [eraseA] at h
  | cons q rest ih =>
    obtain ⟨k, w⟩ := q
    by_cases hk : k = key
    · simp [eraseA, hk] at h
      exact List.mem_cons_of_mem _ (ih h)
    · simp [eraseA, hk] at h
      rcases h with h | h
      · simp [h]
      · exact List.mem_cons_of_mem _ (ih h)

theorem mem_eraseA_key_ne {α β : Type} [DecidableEq α]
    {l : List (α × β)} {key : α} {p : α × β} (h : p ∈ eraseA l key) :
    p.1 ≠ key := by
  induction l with
  | nil => simp [eraseA] at h
  | cons q rest ih =>
    obtain ⟨k, w⟩ := q
    by_cases hk : k = key
    · simp [eraseA, hk] at h
      exact ih h
    · simp [eraseA, hk] at h
      rcases h with h | h
      · simp [h, hk]
      · exact ih h

/-- `_process_message` never adds pending entries: a binding found after
processing was already there. -/
theorem processMessage_pending_subset {st : SessionSt} {m : Message}
    {j g : Nat} (h : lookupA (processMessage st m).pending_requests j = some g) :
    lookupA st.pending_requests j = some g := by
  unfold processMessage at h
  cases hid : m.id with
  | none => simpa [hid] using h
  | some rid =>
    simp only [hid] at h
    cases hp : lookupA st.pending_requests rid with
    | none => simpa [hp] using h
    | some fut =>
      simp only [hp] at h
      cases ho : msgOutcome m with
      | none =>
        simp only [ho, lookupA_eraseA] at h
        split at h
        · exact absurd h (by simp)
        · exact h
      | some o =>
        simp only [ho, lookupA_eraseA] at h
        split at h
        · exact absurd h (by simp)
        · exact h

theorem processMessages_pending_subset {msgs : List Message} {st : SessionSt}
    {j g : Nat}
    (h : lookupA (processMessages st msgs).pending_requests j = some g) :
    lookupA st.pending_requests j = some g := by
  induction msgs generalizing st with
  | nil => exact h
  | cons m rest ih =>
    exact processMessage_pending_subset (ih h)

theorem processMessage_pending_mem {st : SessionSt} {m : Message}
    {p : Nat × Nat} (h : p ∈ (processMessage st m).pending_requests) :
    p ∈ st.pending_requests := by
  unfold processMessage at h
  cases hid : m.id with
  | none => simpa [hid] using h
  | some rid =>
    simp only [hid] at h
    cases hp : lookupA st.pending_requests rid with
    | none => simpa [hp] using h
    | some fut =>
      simp only [hp] at h
      cases ho : msgOutcome m with
      | none => simpa [ho] using mem_eraseA (by simpa [ho] using h)
      | some o => simpa [ho] using mem_eraseA (by simpa [ho] using h)

/-- A future that is bound to no pending request id can never be resolved
by a processed message, and stays unbound. -/
theorem processMessage_resolved_stable (m : Message) {st : SessionSt}
    {f : Nat} (hNof : ∀ p ∈ st.pending_requests, p.2 ≠ f) :
    lookupA (processMessage st m).resolved f = lookupA st.resolved f ∧
    (∀ p ∈ (processMessage st m).pending_requests, p.2 ≠ f) := by
  refine ⟨?_, fun p hp => hNof p (processMessage_pending_mem hp)⟩
  unfold processMessage
  cases hid : m.id with
  | none => rfl
  | some rid =>
    cases hp : lookupA st.pending_requests rid with
    | none => simp [hp]
    | some fut =>
      have hfut : fut ≠ f := hNof (rid, fut) (lookupA_mem hp)
      cases ho : msgOutcome m with
      | none => simp [hp, ho]
      | some o => simp [hp, ho, lookupA, hfut, Ne.symm hfut]

theorem processMessages_resolved_stable (msgs : List Message)
    {st : SessionSt} {f : Nat}
    (hNof : ∀ p ∈ st.pending_requests, p.2 ≠ f) :
    lookupA (processMessages st msgs).resolved f = lookupA st.resolved f := by
  induction msgs generalizing st with
  | nil => rfl
  | cons m rest ih =>
    have h := processMessage_resolved_stable m hNof
    calc lookupA (processMessages (processMessage st m) rest).resolved f
        = lookupA (processMessage st m).resolved f := ih h.2
      _ = lookupA st.resolved f := h.1

/-- The only way a message resolves future `f` is by carrying the id of a
pending request bound to `f`, and the recorded outcome is the message's
own result/error. -/
theorem processMessage_resolved_new {st : SessionSt} {m : Message}
    {f : Nat} {o : Outcome}
    (hres : lookupA st.resolved f = none)
    (hnew : lookupA (processMessage st m).resolved f = some o) :
    ∃ rid, m.id = some rid ∧ lookupA st.pending_requests rid = some f ∧
      msgOutcome m = some o := by
  unfold processMessage at hnew
  cases hid : m.id with
  | none => simp [hid, hres] at hnew
  | some rid =>
    simp only [hid] at hnew
    cases hp : lookupA st.pending_requests rid with
    | none => simp [hp, hres] at hnew
    | some fut =>
      simp only [hp] at hnew
      cases ho : msgOutcome m with
      | none => simp [ho, hres] at hnew
      | some o2 =>
        simp only [ho, lookupA] at hnew
        by_cases hf : f = fut
        · subst hf
          simp at hnew
          exact ⟨rid, rfl, hp, congrArg some hnew⟩
        · simp [hf, hres] at hnew

/-- When a message turns future `f` from unresolved to resolved, no
pending entry for `f` survives it (given `f` was registered under a
single request id). -/
theorem processMessage_resolved_excludes {st : SessionSt} {m : Message}
    {f i : Nat} {o : Outcome}
    (hOnly : ∀ p ∈ st.pending_requests, p.2 = f → p.1 = i)
    (hres : lookupA st.resolved f = none)
    (hnew : lookupA (processMessage st m).resolved f = some o) :
    ∀ p ∈ (processMessage st m).pending_requests, p.2 ≠ f := by
  obtain ⟨rid, hid, hp, ho⟩ := processMessage_resolved_new hres hnew
  have hrid : rid = i := hOnly (rid, f) (lookupA_mem hp) rfl
  intro p hmem hpf
  have hpend : (processMessage st m).pending_requests =
      eraseA st.pending_requests rid := by
    unfold processMessage
    simp only [hid, hp, ho]
  rw [hpend] at hmem
  have h1 : p.1 = i := hOnly p (mem_eraseA hmem) hpf
  exact mem_eraseA_key_ne hmem (h1.trans hrid.symm)

/-- Soundness of correlation: the only resolutions a future can receive
come from a message carrying the request id it was registered under. -/
theorem resolve_source :
    ∀ (msgs : List Message) (st : SessionSt) (f i : Nat) (out : Outcome),
    (∀ p ∈ st.pending_requests, p.2 = f → p.1 = i) →
    lookupA st.resolved f = none →
    lookupA (processMessages st msgs).resolved f = some out →
    ∃ m ∈ msgs, m.id = some i ∧ msgOutcome m = some out := by
  intro msgs
  induction msgs with
  | nil =>
    intro st f i out _ hres hfin
    rw [show processMessages st [] = st from rfl, hres] at hfin
    exact absurd hfin (by simp)
  | cons m rest ih =>
    intro st f i out hOnly hres hfin
    have hfold : processMessages st (m :: rest) =
        processMessages (processMessage st m) rest := rfl
    rw [hfold] at hfin
    have hOnly2 : ∀ p ∈ (processMessage st m).pending_requests,
        p.2 = f → p.1 = i :=
      fun p hp => hOnly p (processMessage_pending_mem hp)
    cases hres2 : lookupA (processMessage st m).resolved f with
    | none =>
      obtain ⟨m2, hm2, hprop⟩ := ih (processMessage st m) f i out hOnly2 hres2 hfin
      exact ⟨m2, List.mem_cons_of_mem _ hm2, hprop⟩
    | some o =>
      obtain ⟨rid, hid, hp, ho⟩ := processMessage_resolved_new hres hres2
      have hrid : rid = i := hOnly (rid, f) (lookupA_mem hp) rfl
      have hexcl := processMessage_resolved_excludes hOnly hres hres2
      have hstable := processMessages_resolved_stable rest hexcl
      rw [hstable, hres2] at hfin
      have hoo : o = out := by injection hfin
      exact ⟨m, List.mem_cons_self _ _, hrid ▸ hid, hoo ▸ ho⟩

/-- A message that does not carry request id `i` leaves `i`'s pending
binding untouched. -/
theorem processMessage_pending_preserved {st : SessionSt} {m : Message}
    {i : Nat} (hid : m.id ≠ some i) :
    lookupA (processMessage st m).pending_requests i =
      lookupA st.pending_requests i := by
  unfold processMessage
  cases hi : m.id with
  | none => simp only
  | some rid =>
    have hri : i ≠ rid := fun h => hid (by rw [hi, h])
    simp only [hi]
    cases hp : lookupA st.pending_requests rid with
    | none => simp only [hp]
    | some fut =>
      simp only [hp]
      cases ho : msgOutcome m with
      | none => simp only [ho, lookupA_eraseA, if_neg hri]
      | some o => simp only [ho, lookupA_eraseA, if_neg hri]

/-- A message that does not carry request id `i` cannot resolve the
future registered only under `i`. -/
theorem processMessage_resolved_none {st : SessionSt} {m : Message}
    {f i : Nat}
    (hOnly : ∀ p ∈ st.pending_requests, p.2 = f → p.1 = i)
    (hid : m.id ≠ some i)
    (hres : lookupA st.resolved f = none) :
    lookupA (processMessage st m).resolved f = none := by
  cases h : lookupA (processMessage st m).resolved f with
  | none => rfl
  | some o =>
    obtain ⟨rid, hridid, hp, _⟩ := processMessage_resolved_new hres h
    have hri : rid = i := hOnly (rid, f) (lookupA_mem hp) rfl
    exact absurd (hri ▸ hridid) hid

/-- Delivery of correlation: a reply carrying a registered request id,
arriving before any other reply with that id, resolves exactly that
call's future with the reply's own result/error. -/
theorem resolve_delivery :
    ∀ (pre : List Message) (m : Message) (post : List Message)
      (st : SessionSt) (f i : Nat) (out : Outcome),
    (∀ p ∈ st.pending_requests, p.2 = f → p.1 = i) →
    lookupA st.pending_requests i = some f →
    lookupA st.resolved f = none →
    (∀ m2 ∈ pre, m2.id ≠ some i) →
    m.id = some i → msgOutcome m = some out →
    lookupA (processMessages st (pre ++ m :: post)).resolved f = some out := by
  intro pre
  induction pre with
  | nil =>
    intro m post st f i out hOnly hpend hres _ hid hout
    have hfold : processMessages st ([] ++ m :: post) =
        processMessages (processMessage st m) post := rfl
    rw [hfold]
    have hnew : lookupA (processMessage st m).resolved f = some out := by
      unfold processMessage
      cases hr : m.result with
      | some v =>
        have : msgOutcome m = some (Outcome.success v) := by simp [msgOutcome, hr]
        rw [this] at hout
        simp [hid, hpend, msgOutcome, hr, lookupA]
        injection hout
      | none =>
        cases he : m.error with
        | some e =>
          have : msgOutcome m = some (Outcome.failure e) := by
            simp [msgOutcome, hr, he]
          rw [this] at hout
          simp [hid, hpend, msgOutcome, hr, he, lookupA]
          injection hout
        | none =>
          exact absurd hout (by simp [msgOutcome, hr, he])
    have hexcl := processMessage_resolved_excludes hOnly hres hnew
    rw [processMessages_resolved_stable post hexcl]
    exact hnew
  | cons m2 pre2 ih =>
    intro m post st f i out hOnly hpend hres hpre hid hout
    have hfold : processMessages st ((m2 :: pre2) ++ m :: post) =
        processMessages (processMessage st m2) (pre2 ++ m :: post) := rfl
    rw [hfold]
    have hid2 : m2.id ≠ some i := hpre m2 (List.mem_cons_self _ _)
    have hOnly2 : ∀ p ∈ (processMessage st m2).pending_requests,
        p.2 = f → p.1 = i :=
      fun p hp => hOnly p (processMessage_pending_mem hp)
    have hpend2 : lookupA (processMessage st m2).pending_requests i = some f :=
      (processMessage_pending_preserved hid2).trans hpend
    have hres2 : lookupA (processMessage st m2).resolved f = none :=
      processMessage_resolved_none hOnly hid2 hres
    exact ih m post (processMessage st m2) f i out hOnly2 hpend2 hres2
      (fun m3 hm3 => hpre m3 (List.mem_cons_of_mem _ hm3)) hid hout

/-- A future still pending after the reader loop has processed a message
sequence was never resolved during it. -/
theorem still_pending_unresolved :
    ∀ (msgs : List Message) (st : SessionSt) (f i : Nat),
    (∀ p ∈ st.pending_requests, p.2 = f → p.1 = i) →
    lookupA st.resolved f = none →
    lookupA (processMessages st msgs).pending_requests i = some f →
    lookupA (processMessages st msgs).resolved f = none := by
  intro msgs
  induction msgs with
  | nil =>
    intro st f i _ hres _
    exact hres
  | cons m rest ih =>
    intro st f i hOnly hres hpend
    have hfold : processMessages st (m :: rest) =
        processMessages (processMessage st m) rest := rfl
    rw [hfold] at hpend ⊢
    have hOnly2 : ∀ p ∈ (processMessage st m).pending_requests,
        p.2 = f → p.1 = i :=
      fun p hp => hOnly p (processMessage_pending_mem hp)
    have hres2 : lookupA (processMessage st m).resolved f = none := by
      cases h : lookupA (processMessage st m).resolved f with
      | none => rfl
      | some o =>
        have hmid : lookupA (processMessage st m).pending_requests i = some f :=
          processMessages_pending_subset hpend
        exact absurd rfl
          (processMessage_resolved_excludes hOnly hres h (i, f) (lookupA_mem hmid))
    exact ih (processMessage st m) f i hOnly2 hres2 hpend

/-- C1: for every set of in-flight `send_request` calls and every order of
backend replies, a call's future is resolved only by a reply whose id is
the one allocated to that call and with exactly that reply's result or
error (soundness), and the first reply carrying that id does resolve it
with its own payload (delivery). -/
theorem send_request_correlated_by_id
    (st : SessionSt) (events : List ReadEvent) (f i : Nat)
    (hOnly : ∀ p ∈ st.pending_requests, p.2 = f → p.1 = i)
    (hres : lookupA st.resolved f = none) :
    (∀ out, lookupA (readerLoop st events).resolved f = some out →
        ∃ m ∈ processedMsgs events, m.id = some i ∧ msgOutcome m = some out) ∧
    (∀ pre m post out, processedMsgs events = pre ++ m :: post →
        lookupA st.pending_requests i = some f →
        (∀ m2 ∈ pre, m2.id ≠ some i) →
        m.id = some i → msgOutcome m = some out →
        lookupA (readerLoop st events).resolved f = some out) := by
  rw [readerLoop_eq_processMessages]
  constructor
  · intro out hfin
    exact resolve_source (processedMsgs events) st f i out hOnly hres hfin
  · intro pre m post out hsplit hpend hpre hid hout
    rw [hsplit]
    exact resolve_delivery pre m post st f i out hOnly hpend hres hpre hid hout

/-- C3: when the reader loop terminates (end-of-stream or protocol
failure), every call whose request is still pending fails: its await hits
the timeout, surfaces `RuntimeError(... timed out ...)`, and its pending
entry is removed — it is not left pending unresolved. -/
theorem reader_termination_fails_pending_calls
    (st : SessionSt) (events : List ReadEvent) (f i : Nat)
    (hOnly : ∀ p ∈ st.pending_requests, p.2 = f → p.1 = i)
    (hres : lookupA st.resolved f = none)
    (hpend : lookupA (readerLoop st events).pending_requests i = some f) :
    (awaitWithTimeout (readerLoop st events) i f).2 = CallResult.timedOut ∧
    lookupA ((awaitWithTimeout (readerLoop st events) i f).1).pending_requests
      i = none := by
  rw [readerLoop_eq_processMessages] at hpend ⊢
  have hfin : lookupA (processMessages st (processedMsgs events)).resolved f =
      none :=
    still_pending_unresolved (processedMsgs events) st f i hOnly hres hpend
  unfold awaitWithTimeout
  rw [hfin]
  exact ⟨rfl, by simp [lookupA_eraseA]⟩

/-- C4: a timed-out `send_request` call removes its entry from
the pending map and fails with the timeout error; a reply bearing its id
arriving at any later point is discarded (it changes nothing) and
the caller's future is never resolved afterwards. -/
theorem timeout_removes_entry_and_discards_late_reply
    (st : SessionSt) (f i : Nat)
    (hOnly : ∀ p ∈ st.pending_requests, p.2 = f → p.1 = i)
    (hres : lookupA st.resolved f = none) :
    (awaitWithTimeout st i f).2 = CallResult.timedOut ∧
    lookupA (awaitWithTimeout st i f).1.pending_requests i = none ∧
    (∀ m, m.id = some i →
        processMessage (awaitWithTimeout st i f).1 m =
          (awaitWithTimeout st i f).1) ∧
    (∀ msgs,
        lookupA (processMessages (awaitWithTimeout st i f).1 msgs).resolved f =
          none) := by
  unfold awaitWithTimeout
  rw [hres]
  refine ⟨rfl, by simp [lookupA_eraseA], ?_, ?_⟩
  · intro m hid
    unfold processMessage
    rw [hid]
    simp [lookupA_eraseA]
  · intro msgs
    have hNof : ∀ p ∈ eraseA st.pending_requests i, p.2 ≠ f := by
      intro p hp hpf
      exact mem_eraseA_key_ne hp (hOnly p (mem_eraseA hp) hpf)
    exact (processMessages_resolved_stable msgs hNof).trans hres

/-- Request ids allocated by successive `send_request` calls on an
initialized session. -/
theorem runAllocs_ids :
    ∀ (futs : List Nat) (st : SessionSt), st.initialized = true →
    (runAllocs st futs).2 = List.range' (st.message_id + 1) futs.length ∧
    (runAllocs st futs).1.message_id = st.message_id + futs.length ∧
    (runAllocs st futs).1.initialized = true := by
  intro futs
  induction futs with
  | nil =>
    intro st hinit
    exact ⟨rfl, rfl, hinit⟩
  | cons fut futs ih =>
    intro st hinit
    have hstep : sendRequestStart st "textDocument/rename".toList fut =
        Except.ok
          ({ st with
              message_id := st.message_id + 1
              pending_requests :=
                insertA st.pending_requests (st.message_id + 1) fut
              sent := st.sent ++ ["textDocument/rename".toList] },
            st.message_id + 1) := by
      unfold sendRequestStart
      rw [if_neg (by simp [hinit])]
    obtain ⟨h1, h2, h3⟩ := ih
      { st with
          message_id := st.message_id + 1
          pending_requests := insertA st.pending_requests (st.message_id + 1) fut
          sent := st.sent ++ ["textDocument/rename".toList] }
      (by simpa using hinit)
    refine ⟨?_, ?_, ?_⟩
    · simp only [runAllocs, hstep, List.length_cons]
      rw [h1, List.range'_succ]
    · simp only [runAllocs, hstep, List.length_cons]
      rw [h2]
      show st.message_id + 1 + futs.length = st.message_id + (futs.length + 1)
      omega
    · simp only [runAllocs, hstep]
      exact h3

/-- C9: the request id counter starts at 0 and is incremented before each
use; the ids handed to successive `send_request` calls from any session
point are consecutive, strictly increasing, and never repeat. -/
theorem send_request_ids_strictly_increasing
    (st : SessionSt) (futs : List Nat) (hinit : st.initialized = true) :
    (runAllocs st futs).2 = List.range' (st.message_id + 1) futs.length ∧
    List.Pairwise (· < ·) (runAllocs st futs).2 ∧
    ((runAllocs st futs).2).Nodup ∧
    initialSession.message_id = 0 := by
  obtain ⟨h1, _, _⟩ := runAllocs_ids futs st hinit
  refine ⟨h1, ?_, ?_, rfl⟩
  · rw [h1]
    exact List.pairwise_lt_range' _ _
  · rw [h1]
    exact List.nodup_range' _ _

/-- C2: `_rename_symbol` never touches the file system: it opens the
document (a read plus notifications), sends the `textDocument/rename`
request, and returns the backend's reply; the file system it returns is
the one it was given, at every path. -/
theorem rename_symbol_does_not_write
    (fs : FS) (st : SessionSt) (fut : Nat) (reply : Message)
    (file_path : List Char) (line column : Nat) (new_name : List Char) :
    (renameSymbol fs st fut reply file_path line column new_name).1 = fs := by
  unfold renameSymbol
  cases sendRequestStart (openDocument fs st file_path)
      "textDocument/rename".toList fut with
  | error e => rfl
  | ok r =>
    obtain ⟨st2, request_id⟩ := r
    rfl

/-! ### Concrete witnesses for the client claims -/

def demoMessage (i v : Nat) : Message :=
  { id := some i, result := some v, error := none, method := none }

def demoPending : SessionSt :=
  { message_id := 2
    pending_requests := [(2, 12), (1, 11)]
    resolved := []
    initialized := true
    open_documents := []
    sent := [] }

def demoInit : SessionSt :=
  { initialSession with initialized := true }

theorem send_request_correlated_by_id_witness :
    lookupA (readerLoop demoPending
      [ReadEvent.msg (demoMessage 2 42),
        ReadEvent.msg (demoMessage 1 41)]).resolved 12 =
      some (Outcome.success 42) :=
  (send_request_correlated_by_id demoPending
      [ReadEvent.msg (demoMessage 2 42), ReadEvent.msg (demoMessage 1 41)]
      12 2 (by decide) (by decide)).2
    [] (demoMessage 2 42) [demoMessage 1 41] (Outcome.success 42)
    (by decide) (by decide) (by simp) (by decide) (by decide)

theorem reader_termination_fails_pending_calls_witness :
    (awaitWithTimeout (readerLoop demoPending [ReadEvent.malformed]) 1 11).2 =
      CallResult.timedOut ∧
    lookupA ((awaitWithTimeout (readerLoop demoPending [ReadEvent.malformed])
      1 11).1).pending_requests 1 = none :=
  reader_termination_fails_pending_calls demoPending [ReadEvent.malformed]
    11 1 (by decide) (by decide) (by decide)

theorem timeout_removes_entry_and_discards_late_reply_witness :
    (awaitWithTimeout demoPending 1 11).2 = CallResult.timedOut ∧
    lookupA (awaitWithTimeout demoPending 1 11).1.pending_requests 1 = none ∧
    processMessage (awaitWithTimeout demoPending 1 11).1 (demoMessage 1 99) =
      (awaitWithTimeout demoPending 1 11).1 ∧
    lookupA (processMessages (awaitWithTimeout demoPending 1 11).1
      [demoMessage 1 99]).resolved 11 = none := by
  obtain ⟨h1, h2, h3, h4⟩ :=
    timeout_removes_entry_and_discards_late_reply demoPending 11 1
      (by decide) (by decide)
  exact ⟨h1, h2, h3 (demoMessage 1 99) (by decide), h4 [demoMessage 1 99]⟩

theorem send_request_ids_strictly_increasing_witness :
    (runAllocs demoInit [5, 6, 7]).2 = List.range' 1 3 :=
  (send_request_ids_strictly_increasing demoInit [5, 6, 7] rfl).1

/-! ### Plan application claims -/

/-- Unfolding one step of the `changes` loop. -/
theorem applyChanges_cons (fs : FS) (uri : List Char) (es : List TextEdit)
    (rest : List (List Char × List TextEdit)) :
    applyChanges fs ((uri, es) :: rest) =
      match uriToPath uri with
      | Except.error e => (fs, Except.error e)
      | Except.ok file_path =>
        match applyTextEditsFS fs file_path es with
        | Except.error e => (fs, Except.error e)
        | Except.ok fs2 =>
          match applyChanges fs2 rest with
          | (fs3, Except.ok files) => (fs3, Except.ok (file_path :: files))
          | (fs3, Except.error e) => (fs3, Except.error e) := rfl

/-- Processing a `changes` map is sequential: after a successful prefix,
the loop continues from the file system the prefix produced. -/
theorem applyChanges_append :
    ∀ (pre : List (List Char × List TextEdit)) (fs fs1 : FS)
      (files : List (List Char)) (suf : List (List Char × List TextEdit)),
    applyChanges fs pre = (fs1, Except.ok files) →
    applyChanges fs (pre ++ suf) =
      ((applyChanges fs1 suf).1,
        match (applyChanges fs1 suf).2 with
        | Except.ok files2 => Except.ok (files ++ files2)
        | Except.error e => Except.error e) := by
  intro pre
  induction pre with
  | nil =>
    intro fs fs1 files suf h
    have h' : (fs, (Except.ok [] : Except PyError (List (List Char)))) =
        (fs1, Except.ok files) := h
    have h1 : fs = fs1 := congrArg Prod.fst h'
    have h2 : files = [] := by
      have h3 := congrArg Prod.snd h'
      injection h3 with h4
      exact h4.symm
    subst h1
    subst h2
    rcases hs : applyChanges fs suf with ⟨fs2, r⟩
    cases r <;> simp [hs]
  | cons entry pre2 ih =>
    intro fs fs1 files suf h
    obtain ⟨uri, es⟩ := entry
    rw [applyChanges_cons] at h
    cases hu : uriToPath uri with
    | error e =>
      simp only [hu] at h
      exact absurd (congrArg Prod.snd h) (by simp)
    | ok p =>
      simp only [hu] at h
      cases hf : applyTextEditsFS fs p es with
      | error e =>
        simp only [hf] at h
        exact absurd (congrArg Prod.snd h) (by simp)
      | ok fs2 =>
        simp only [hf] at h
        rcases hrec : applyChanges fs2 pre2 with ⟨fs3, r⟩
        simp only [hrec] at h
        cases r with
        | error e =>
          exact absurd (congrArg Prod.snd h) (by simp)
        | ok fl =>
          have hfs3 : fs3 = fs1 := congrArg Prod.fst h
          have hfl : files = p :: fl := by
            have h3 := congrArg Prod.snd h
            injection h3 with h4
            exact h4.symm
          have hih := ih fs2 fs3 fl suf hrec
          have hstep : applyChanges fs (((uri, es) :: pre2) ++ suf) =
              match applyChanges fs2 (pre2 ++ suf) with
              | (fs4, Except.ok fl2) => (fs4, Except.ok (p :: fl2))
              | (fs4, Except.error e) => (fs4, Except.error e) := by
            show applyChanges fs ((uri, es) :: (pre2 ++ suf)) = _
            rw [applyChanges_cons]
            simp only [hu, hf]
          rw [hstep, hih, hfs3, hfl]
          rcases hr2 : applyChanges fs1 suf with ⟨fs4, r2⟩
          cases r2 <;> simp [hr2]

/-- C6 (counterexample): the multi-line scenario of the spec (also the
repository's test `test_apply_single_edit_multi_line`) does not hold of
the code: on the lines `"line one\n","line two\n","line three\n"` with
range (0,5)-(1,8) and replacement `"1\n2"`, `_apply_single_edit` does not
produce the result lines `"line 1\n","2 three\n"`. (That expectation
matches an edit ending at (2,4), not the (1,8) the scenario passes: at
end position (1,8) the suffix taken from `"line two"` is empty.) -/
theorem apply_single_edit_multiline_scenario_false :
    ¬ (applySingleEdit
        ["line one\n".toList, "line two\n".toList, "line three\n".toList]
        0 5 1 8 "1\n2".toList =
      ["line 1\n".toList, "2 three\n".toList]) := by
  decide

/-- C6 (amended): on the three lines `"line one\n","line two\n",
"line three\n"` with range (0,5)-(1,8) and replacement `"1\n2"`,
`_apply_single_edit` produces exactly the lines
`"line 1\n","2\n","line three\n"`. -/
theorem apply_single_edit_multiline_scenario :
    applySingleEdit
        ["line one\n".toList, "line two\n".toList, "line three\n".toList]
        0 5 1 8 "1\n2".toList =
      ["line 1\n".toList, "2\n".toList, "line three\n".toList] := by
  decide

/-- Applying an empty edit list to a file's content is the identity:
splitting into lines and joining back reproduces the content. -/
theorem applyTextEditsContent_nil (content : List Char) :
    applyTextEditsContent content [] = content := by
  show ((sortEdits []).foldl applyEditToLines (splitLines content)).flatten =
    content
  rw [show sortEdits ([] : List TextEdit) = [] from List.mergeSort_nil,
    List.foldl_nil]
  exact join_splitLines content

def demoCrlfFS : FS := [("/tmp/x.py".toList, "a\r\nb\r\n".toList)]

/-- C8: evaluating `apply_workspace_edit` with an empty edit list on a
CRLF file. The read-side universal-newline translation of
`open(file, "r")` rewrites the stored `"a\r\nb\r\n"` to `"a\nb\n"`,
and that is what gets written back — the file is not left
byte-identical, contradicting the spec's round-trip property. -/
theorem apply_empty_edit_list_crlf_rewrites :
    applyWorkspaceEdit demoCrlfFS
        { changes := some [("file:///tmp/x.py".toList, [])],
          documentChanges := none } =
      (insertA demoCrlfFS "/tmp/x.py".toList "a\nb\n".toList,
        Except.ok ["/tmp/x.py".toList]) ∧
    lookupA (applyWorkspaceEdit demoCrlfFS
        { changes := some [("file:///tmp/x.py".toList, [])],
          documentChanges := none }).1 "/tmp/x.py".toList =
      some "a\nb\n".toList ∧
    lookupA demoCrlfFS "/tmp/x.py".toList = some "a\r\nb\r\n".toList ∧
    ("a\nb\n".toList : List Char) ≠ "a\r\nb\r\n".toList := by
  have huri : uriToPath "file:///tmp/x.py".toList =
      Except.ok "/tmp/x.py".toList := by decide
  have hl : lookupA demoCrlfFS "/tmp/x.py".toList =
      some "a\r\nb\r\n".toList := by decide
  have hun : universalNewlines "a\r\nb\r\n".toList = "a\nb\n".toList := by
    decide
  have hfs : applyTextEditsFS demoCrlfFS "/tmp/x.py".toList [] =
      Except.ok (insertA demoCrlfFS "/tmp/x.py".toList "a\nb\n".toList) := by
    unfold applyTextEditsFS
    simp only [hl]
    rw [applyTextEditsContent_nil, hun]
  have happ : applyWorkspaceEdit demoCrlfFS
      { changes := some [("file:///tmp/x.py".toList, [])],
        documentChanges := none } =
      (insertA demoCrlfFS "/tmp/x.py".toList "a\nb\n".toList,
        Except.ok ["/tmp/x.py".toList]) := by
    show applyChanges demoCrlfFS [("file:///tmp/x.py".toList, [])] = _
    rw [applyChanges_cons]
    simp only [huri, hfs]
    rfl
  refine ⟨happ, ?_, hl, by decide⟩
  rw [happ]
  simp [lookupA_insertA]

/-- C7: a plan entry whose target file does not exist fails the whole
apply call with the `IOError`, the files written by earlier entries stay
written (no rollback), and entries after the failing one are never
processed. -/
theorem apply_missing_target_no_rollback
    (fs0 fs1 : FS) (pre rest : List (List Char × List TextEdit))
    (files : List (List Char)) (uriM pM : List Char) (es : List TextEdit)
    (hpre : applyChanges fs0 pre = (fs1, Except.ok files))
    (huri : uriToPath uriM = Except.ok pM)
    (hmiss : lookupA fs1 pM = none) :
    applyWorkspaceEdit fs0
        { changes := some (pre ++ (uriM, es) :: rest),
          documentChanges := none } =
      (fs1, Except.error
        (PyError.ioError ("File does not exist: ".toList ++ pM))) := by
  show applyChanges fs0 (pre ++ (uriM, es) :: rest) = _
  rw [applyChanges_append pre fs0 fs1 files _ hpre]
  have hio : applyTextEditsFS fs1 pM es = Except.error
      (PyError.ioError ("File does not exist: ".toList ++ pM)) := by
    unfold applyTextEditsFS
    simp only [hmiss]
  have hbad : applyChanges fs1 ((uriM, es) :: rest) =
      (fs1, Except.error
        (PyError.ioError ("File does not exist: ".toList ++ pM))) := by
    rw [applyChanges_cons]
    simp only [huri, hio]
  rw [hbad]

/-- C10: a plan entry whose URI has a scheme other than `file` makes the
URI-to-path conversion raise the `ValueError`, so the apply call fails
there and writes nothing for that entry. -/
theorem apply_nonfile_uri_valueerror
    (fs0 fs1 : FS) (pre rest : List (List Char × List TextEdit))
    (files : List (List Char)) (uri : List Char) (es : List TextEdit)
    (hpre : applyChanges fs0 pre = (fs1, Except.ok files))
    (hscheme : (uriSchemeRest uri).1 ≠ "file".toList) :
    uriToPath uri = Except.error (PyError.valueError
      ("Only file:// URIs are supported, got: ".toList ++ uri)) ∧
    applyWorkspaceEdit fs0
        { changes := some (pre ++ (uri, es) :: rest),
          documentChanges := none } =
      (fs1, Except.error (PyError.valueError
        ("Only file:// URIs are supported, got: ".toList ++ uri))) := by
  have herr : uriToPath uri = Except.error (PyError.valueError
      ("Only file:// URIs are supported, got: ".toList ++ uri)) := by
    simp only [uriToPath]
    rw [if_pos hscheme]
  refine ⟨herr, ?_⟩
  show applyChanges fs0 (pre ++ (uri, es) :: rest) = _
  rw [applyChanges_append pre fs0 fs1 files _ hpre]
  have hbad : applyChanges fs1 ((uri, es) :: rest) =
      (fs1, Except.error (PyError.valueError
        ("Only file:// URIs are supported, got: ".toList ++ uri))) := by
    rw [applyChanges_cons]
    simp only [herr]
  rw [hbad]

/-! ### Concrete witnesses for the plan claims -/

def demoFS2 : FS := [("/a.py".toList, "alpha\n".toList)]

theorem apply_missing_target_no_rollback_witness :
    applyWorkspaceEdit demoFS2
        { changes := some [("file:///b.py".toList, ([] : List TextEdit))],
          documentChanges := none } =
      (demoFS2, Except.error (PyError.ioError
        ("File does not exist: ".toList ++ "/b.py".toList))) :=
  apply_missing_target_no_rollback demoFS2 demoFS2 [] [] []
    "file:///b.py".toList "/b.py".toList [] rfl (by decide) (by decide)

theorem apply_nonfile_uri_valueerror_witness :
    uriToPath "http://example.com/test.py".toList =
      Except.error (PyError.valueError
        ("Only file:// URIs are supported, got: ".toList ++
          "http://example.com/test.py".toList)) ∧
    applyWorkspaceEdit demoFS2
        { changes := some [("http://example.com/test.py".toList,
            ([] : List TextEdit))],
          documentChanges := none } =
      (demoFS2, Except.error (PyError.valueError
        ("Only file:// URIs are supported, got: ".toList ++
          "http://example.com/test.py".toList))) :=
  apply_nonfile_uri_valueerror demoFS2 demoFS2 [] [] []
    "http://example.com/test.py".toList [] rfl (by decide)

/-! ### Order independence of edit application (non-overlapping plans)

The spec's invariant for one file's edit list: ranges must not overlap,
and the edits are applied in *strictly* descending range-start order —
which presumes pairwise distinct start positions.
-/

def posLe (p q : Pos) : Prop :=
  p.line < q.line ∨ (p.line = q.line ∧ p.character ≤ q.character)

instance (p q : Pos) : Decidable (posLe p q) := by
  unfold posLe
  exact inferInstance

/-- Strict lexicographic order on `(line, character)` sort keys. -/
def keyLtP (p q : Nat × Nat) : Prop :=
  p.1 < q.1 ∨ (p.1 = q.1 ∧ p.2 < q.2)

/-- Two edits of one file's plan that do not overlap: their ranges are
ordered-disjoint and their start positions differ. -/
def disjointEdits (a b : TextEdit) : Prop :=
  (posLe a.range.stop b.range.start ∨ posLe b.range.stop a.range.start) ∧
  editKey a ≠ editKey b

instance (a b : TextEdit) : Decidable (disjointEdits a b) := by
  unfold disjointEdits
  exact inferInstance

def nonOverlapping (text_edits : List TextEdit) : Prop :=
  List.Pairwise disjointEdits text_edits

instance (text_edits : List TextEdit) : Decidable (nonOverlapping text_edits) := by
  unfold nonOverlapping
  exact inferInstance

theorem keyLe_iff (p q : Nat × Nat) :
    keyLe p q = true ↔ (p.1 < q.1 ∨ (p.1 = q.1 ∧ p.2 ≤ q.2)) := by
  simp [keyLe]

theorem editLe_trans (a b c : TextEdit) :
    editLe a b → editLe b c → editLe a c := by
  intro hab hbc
  simp only [editLe, keyLe_iff] at *
  omega

theorem editLe_total (a b : TextEdit) : editLe a b || editLe b a := by
  simp only [editLe, Bool.or_eq_true, keyLe_iff]
  omega

theorem sortEdits_perm (text_edits : List TextEdit) :
    (sortEdits text_edits).Perm text_edits :=
  List.mergeSort_perm text_edits editLe

theorem sortEdits_sorted (text_edits : List TextEdit) :
    (sortEdits text_edits).Pairwise (fun a b => editLe a b = true) :=
  List.sorted_mergeSort editLe_trans (fun a b => editLe_total a b) text_edits

/-- The relation in which `sorted(..., reverse=True)` output is strict:
`b`'s start key strictly below `a`'s. -/
def editGt (a b : TextEdit) : Prop :=
  keyLtP (editKey b) (editKey a)

theorem editGt_asymm (a b : TextEdit) : editGt a b → editGt b a → False := by
  unfold editGt keyLtP
  omega

theorem sortEdits_strict (text_edits : List TextEdit)
    (h : List.Pairwise (fun a b => editKey a ≠ editKey b) text_edits) :
    (sortEdits text_edits).Pairwise editGt := by
  have h1 := sortEdits_sorted text_edits
  have h2 : (sortEdits text_edits).Pairwise
      (fun a b => editKey a ≠ editKey b) :=
    ((sortEdits_perm text_edits).pairwise_iff (fun hxy => Ne.symm hxy)).mpr h
  refine (h1.and h2).imp ?_
  intro a b hab
  obtain ⟨hle, hne⟩ := hab
  simp only [editLe, keyLe_iff] at hle
  have hne2 : ¬((editKey a).1 = (editKey b).1 ∧
      (editKey a).2 = (editKey b).2) := by
    intro hh
    exact hne (Prod.ext_iff.mpr hh)
  unfold editGt keyLtP
  omega

/-- Sorting by start key descending is insensitive to the input order
when all start keys are distinct. -/
theorem sortEdits_eq_of_perm (edits1 edits2 : List TextEdit)
    (hperm : edits1.Perm edits2)
    (hne : List.Pairwise (fun a b => editKey a ≠ editKey b) edits1) :
    sortEdits edits1 = sortEdits edits2 := by
  have hne2 : edits2.Pairwise (fun a b => editKey a ≠ editKey b) :=
    (hperm.pairwise_iff (fun hxy => Ne.symm hxy)).mp hne
  have hp : (sortEdits edits1).Perm (sortEdits edits2) :=
    (sortEdits_perm edits1).trans (hperm.trans (sortEdits_perm edits2).symm)
  have hs1 := sortEdits_strict edits1 hne
  have hs2 := sortEdits_strict edits2 hne2
  haveI : IsAntisymm TextEdit editGt :=
    ⟨fun a b h1 h2 => (editGt_asymm a b h1 h2).elim⟩
  exact List.eq_of_perm_of_sorted hp hs1 hs2

/-- C5: for every file content and every non-overlapping edit list,
`_apply_text_edits`'s sort-descending-then-apply pipeline produces the
same output for every permutation of the order the edits were listed. -/
theorem apply_edits_order_independent
    (content : List Char) (edits1 edits2 : List TextEdit)
    (hperm : edits1.Perm edits2) (hno : nonOverlapping edits1) :
    applyTextEditsContent content edits1 =
      applyTextEditsContent content edits2 := by
  have hne : List.Pairwise (fun a b => editKey a ≠ editKey b) edits1 :=
    hno.imp (fun h => h.2)
  show ((sortEdits edits1).foldl applyEditToLines (splitLines content)).flatten
    = ((sortEdits edits2).foldl applyEditToLines (splitLines content)).flatten
  rw [sortEdits_eq_of_perm edits1 edits2 hperm hne]

def demoEditA : TextEdit := ⟨⟨⟨0, 0⟩, ⟨0, 5⟩⟩, "hi".toList⟩

def demoEditB : TextEdit := ⟨⟨⟨0, 6⟩, ⟨0, 11⟩⟩, "there".toList⟩

theorem apply_edits_order_independent_witness :
    applyTextEditsContent "hello world".toList [demoEditA, demoEditB] =
      applyTextEditsContent "hello world".toList [demoEditB, demoEditA] :=
  apply_edits_order_independent "hello world".toList
    [demoEditA, demoEditB] [demoEditB, demoEditA] (by decide) (by decide)
